import Mathlib

/-!
Shallow embedding of the `CouplerStuff` fringe-tracking simulator
(`fringe_functions.py`, `group_delay_sim_loop.py`) and proofs about it.

Modelling conventions:
* Python/NumPy floating-point scalars become real numbers `ℝ`; complex
  arrays become `List ℂ`; per-channel arrays become `List ℝ`.
* `np.sinc` is the normalized sinc `sin (π x) / (π x)` with value `1` at `0`
  (`npSinc` below); `np.round` is round-half-to-even (`npRound` below).
* Random draws are determinised: every simulator takes the random draws as
  explicit oracle arguments.  A Poisson draw becomes
  `shot : ℕ → ℕ → ℝ → ℝ` (output index, channel index, mean ↦ drawn value);
  the single scalar Gaussian read-noise draw per output fiber
  (`np.random.normal(scale=1.6)`, no `size` argument) becomes
  `readN : ℕ → ℝ` (output index ↦ drawn value).
* Python code that can raise (`delay_min` possibly unbound in
  `find_delay_AC`, out-of-range indexing / `argmax` of an empty array in
  `find_delay`) is modelled with `Option`: `none` is the failing run.
-/

noncomputable section

namespace CouplerStuff

open Real

/-- Normalized sinc, the convention of `np.sinc`: `sin (π x) / (π x)`, with
the removable singularity at `0` filled by `1`. -/
def npSinc (x : ℝ) : ℝ :=
  if x = 0 then 1 else Real.sin (π * x) / (π * x)

/-- Round half to even, the convention of `np.round`. -/
def npRound (x : ℝ) : ℤ :=
  if Int.fract x = 1 / 2 then 2 * round (x / 2) else round x

/-- `fringe_flux` (fringe_functions.py line 8): intensity of a polychromatic
fringe pattern at delay `x`.  The Python defaults `disp_phase=0`, `offset=0`
are passed explicitly at every call site of this embedding. -/
def fringe_flux (x lam bandpass F_0 vis coh_phase disp_phase offset : ℝ) : ℝ :=
  F_0 * (1 + npSinc (x * bandpass / lam ^ 2) * vis *
    Real.cos (2 * π * x / lam - coh_phase - disp_phase - offset))

/-- Sellmeier coefficient `B1` of BK7 glass (fringe_functions.py line 54). -/
def B1 : ℝ := 1.03961212

/-- Sellmeier coefficient `B2`. -/
def B2 : ℝ := 0.231792344

/-- Sellmeier coefficient `B3`. -/
def B3 : ℝ := 1.01046945

/-- Sellmeier coefficient `C1`. -/
def C1 : ℝ := 6.00069867e-3

/-- Sellmeier coefficient `C2`. -/
def C2 : ℝ := 2.00179144e-2

/-- Sellmeier coefficient `C3`. -/
def C3 : ℝ := 103.560653

/-- `sellmeier_equation` (fringe_functions.py line 43): phase refractive
index of BK7 glass. -/
def sellmeier_equation (lam : ℝ) : ℝ :=
  Real.sqrt (1 + B1 * lam ^ 2 / (C1 ^ 2 - lam ^ 2)
               + B2 * lam ^ 2 / (C2 ^ 2 - lam ^ 2)
               + B3 * lam ^ 2 / (C3 ^ 2 - lam ^ 2))

/-- `calc_group_index` (fringe_functions.py line 68): group refractive index
of BK7 glass. -/
def calc_group_index (lam : ℝ) : ℝ :=
  let n := sellmeier_equation lam
  let a1 := B1 * lam ^ 2 / (C1 ^ 2 - lam ^ 2) ^ 2
  let a2 := B1 / (C1 ^ 2 - lam ^ 2)
  let a3 := B2 * lam ^ 2 / (C2 ^ 2 - lam ^ 2) ^ 2
  let a4 := B2 / (C2 ^ 2 - lam ^ 2)
  let a5 := B3 * lam ^ 2 / (C3 ^ 2 - lam ^ 2) ^ 2
  let a6 := B3 / (C3 ^ 2 - lam ^ 2)
  n - lam ^ 2 * (a1 + a2 + a3 + a4 + a5 + a6) / n

/-- `phaseshift_glass` (fringe_functions.py line 99): dispersional phase
shift from an extra length of glass. -/
def phaseshift_glass (lam length lam_0 : ℝ) : ℝ :=
  let n := sellmeier_equation lam
  let n_grp := calc_group_index lam_0
  let OPD := (n - n_grp) * length
  OPD * 2 * π / lam

/-- Pre-rounding noisy flux of output fiber `i`, channel `k`, of the
simulated tricoupler (fringe_functions.py lines 150–154): the Poisson shot
draw on the noiseless fringe flux at offset `2π/3 · i`, plus the single
scalar Gaussian read-noise draw `readN i` of that output. -/
def tricouplerPreRound (delay_bad delay_fix : ℝ) (wavelengths : List ℝ)
    (bandpass F_0 vis coh_phase : ℝ) (shot : ℕ → ℕ → ℝ → ℝ) (readN : ℕ → ℝ)
    (i k : ℕ) : ℝ :=
  shot i k (fringe_flux (delay_bad - delay_fix) (wavelengths.getD k 0) bandpass
      F_0 vis coh_phase 0 (2 * π / 3 * i)) + readN i

/-- Rounded noisy flux of tricoupler output `i`, channel `k`
(fringe_functions.py line 154). -/
def tricouplerFlux (delay_bad delay_fix : ℝ) (wavelengths : List ℝ)
    (bandpass F_0 vis coh_phase : ℝ) (shot : ℕ → ℕ → ℝ → ℝ) (readN : ℕ → ℝ)
    (i k : ℕ) : ℝ :=
  (npRound (tricouplerPreRound delay_bad delay_fix wavelengths bandpass
      F_0 vis coh_phase shot readN i k) : ℝ)

/-- `cal_coherence` (fringe_functions.py line 125): complex coherence from a
simulated tricoupler, one complex value per wavelength channel. -/
def cal_coherence (delay_bad delay_fix : ℝ) (wavelengths : List ℝ)
    (bandpass : ℝ) (true_params : ℝ × ℝ × ℝ) (shot : ℕ → ℕ → ℝ → ℝ)
    (readN : ℕ → ℝ) : List ℂ :=
  let F_0 := true_params.1
  let vis := true_params.2.1
  let coh_phase := true_params.2.2
  (List.range wavelengths.length).map fun k =>
    let fA := tricouplerFlux delay_bad delay_fix wavelengths bandpass
        F_0 vis coh_phase shot readN 0 k
    let fB := tricouplerFlux delay_bad delay_fix wavelengths bandpass
        F_0 vis coh_phase shot readN 1 k
    let fC := tricouplerFlux delay_bad delay_fix wavelengths bandpass
        F_0 vis coh_phase shot readN 2 k
    (3 * (fA : ℂ) + Real.sqrt 3 * Complex.I * ((fC : ℂ) - (fB : ℂ))) /
      ((fA : ℂ) + (fB : ℂ) + (fC : ℂ)) - 1

/-- `find_white_fringe` (fringe_functions.py line 163): intensity of the
white-light fringe for one trial delay. -/
def find_white_fringe (gamma : List ℂ) (delay : ℝ) (wavelengths : List ℝ) : ℝ :=
  Complex.abs (((gamma.zip wavelengths).map fun p =>
    p.1 * Complex.exp (Complex.I * ((2 * π / p.2 * delay : ℝ) : ℂ))).sum) ^ 2

/-- `group_delay_envelope` (fringe_functions.py line 182): white-light fringe
intensity for every trial delay.  The `plot` flag only triggers the external
plotting side effect and does not change the returned array. -/
def group_delay_envelope (gamma : List ℂ) (trial_delays : List ℝ)
    (wavelengths : List ℝ) (plot : Bool) : List ℝ :=
  trial_delays.map fun delay => find_white_fringe gamma delay wavelengths

/-- First-occurrence argmax of `x :: xs`: returns the pair (index, value) of
the first maximal element, the semantics of `np.argmax` on a non-empty
array. -/
def argmaxAux : ℝ → List ℝ → ℕ × ℝ
  | x, [] => (0, x)
  | x, y :: ys =>
    let r := argmaxAux y ys
    if x < r.2 then (r.1 + 1, r.2) else (0, x)

/-- Modelled library call: `np.argmax` returns the index of the first
occurrence of the maximum, and raises on an empty array (`none`). -/
def listArgmax : List ℝ → Option ℕ
  | [] => none
  | x :: xs => some (argmaxAux x xs).1

/-- `find_delay` (fringe_functions.py line 210):
`trial_delays[np.argmax(delay_envelope)]`.  `none` models the Python
exceptions (empty envelope, index out of range). -/
def find_delay (delay_envelope trial_delays : List ℝ) : Option ℝ :=
  (listArgmax delay_envelope).bind fun i => trial_delays[i]?

/-- Pre-rounding noisy flux of output fiber `i`, channel `k`, of the
simulated AC coupler (fringe_functions.py lines 256–260): the Poisson shot
draw on the noiseless fringe flux at offset `π · i` with the glass
dispersion phase, plus the single scalar Gaussian read-noise draw `readN i`
of that output. -/
def acPreRound (delay_bad delay_fix : ℝ) (wavelengths : List ℝ)
    (bandpass length lam_0 F_0 vis coh_phase : ℝ) (shot : ℕ → ℕ → ℝ → ℝ)
    (readN : ℕ → ℝ) (i k : ℕ) : ℝ :=
  shot i k (fringe_flux (delay_bad - delay_fix) (wavelengths.getD k 0) bandpass
      F_0 vis coh_phase (phaseshift_glass (wavelengths.getD k 0) length lam_0)
      (π * i)) + readN i

/-- `cal_AC_output` (fringe_functions.py line 229): the 2 × n_channels array
of rounded noisy fluxes from the simulated AC coupler. -/
def cal_AC_output (delay_bad delay_fix : ℝ) (wavelengths : List ℝ)
    (bandpass length lam_0 : ℝ) (true_params : ℝ × ℝ × ℝ)
    (shot : ℕ → ℕ → ℝ → ℝ) (readN : ℕ → ℝ) : List (List ℝ) :=
  let F_0 := true_params.1
  let vis := true_params.2.1
  let coh_phase := true_params.2.2
  (List.range 2).map fun i =>
    (List.range wavelengths.length).map fun k =>
      (npRound (acPreRound delay_bad delay_fix wavelengths bandpass length
          lam_0 F_0 vis coh_phase shot readN i k) : ℝ)

/-- `calc_chi_2_AC` (fringe_functions.py line 266): chi-squared of the real
coherence against the dispersion-shifted cosine model at one trial delay. -/
def calc_chi_2_AC (gamma_r : List ℝ) (delay : ℝ) (wavelengths : List ℝ)
    (length lam_0 : ℝ) : ℝ :=
  ((wavelengths.zip gamma_r).map fun p =>
    (Real.cos (2 * π * delay / p.1 - phaseshift_glass p.1 length lam_0) - p.2) ^ 2).sum

/-- The scan of `find_delay_AC` without plotting (fringe_functions.py lines
318–326): keep the first strictly smaller chi-squared; `delay_min` starts
unassigned (`none`, an `UnboundLocalError` if never assigned). -/
def acScan (chi : ℝ → ℝ) : List ℝ → ℝ → Option ℝ → Option ℝ
  | [], _, delay_min => delay_min
  | d :: ds, chi_2_min, delay_min =>
    if chi d < chi_2_min then acScan chi ds (chi d) (some d)
    else acScan chi ds chi_2_min delay_min

/-- The scan of `find_delay_AC` with plotting (fringe_functions.py lines
305–316): same scan, additionally accumulating `chi_2_plot_array`. -/
def acScanPlot (chi : ℝ → ℝ) : List ℝ → List ℝ → ℝ → Option ℝ →
    List ℝ × Option ℝ
  | [], arr, _, delay_min => (arr, delay_min)
  | d :: ds, arr, chi_2_min, delay_min =>
    if chi d < chi_2_min then
      acScanPlot chi ds (arr ++ [chi d]) (chi d) (some d)
    else acScanPlot chi ds (arr ++ [chi d]) chi_2_min delay_min

/-- `find_delay_AC` (fringe_functions.py line 286): chi-squared minimization
over the trial delays, with `chi_2_min` initialized to `1e10`.  `none`
models the `UnboundLocalError` raised when `delay_min` is never assigned. -/
def find_delay_AC (gamma_r trial_delays wavelengths : List ℝ)
    (length lam_0 : ℝ) (plot : Bool) : Option ℝ :=
  if plot then
    (acScanPlot (fun d => calc_chi_2_AC gamma_r d wavelengths length lam_0)
      trial_delays [] 1e10 none).2
  else
    acScan (fun d => calc_chi_2_AC gamma_r d wavelengths length lam_0)
      trial_delays 1e10 none

/-- Frame-invariant configuration of the tracking loop
(group_delay_sim_loop.py lines 16–93). -/
structure TrackConfig where
  wavelengths : List ℝ
  bandpass : ℝ
  trial_delays : List ℝ
  a : ℝ
  num_group_delay_frames : ℕ
  bias_vis : ℝ
  true_params : ℝ × ℝ × ℝ

/-- Per-frame input of the tracking loop: the random atmospheric delay of
the frame and the frame's noise draws. -/
structure FrameInput where
  bad_delay : ℝ
  shot : ℕ → ℕ → ℝ → ℝ
  readN : ℕ → ℝ

/-- Mutable state of the tracking loop (group_delay_sim_loop.py lines
65–93): running-average envelope, current correction delay, frame counter
and the accumulated squared-visibility estimates. -/
structure TrackState where
  ave_delay_envelope : List ℝ
  fix_delay : ℝ
  frame_num : ℕ
  vis_array : List ℝ

/-- Coherence of one frame (group_delay_sim_loop.py line 105): note the
simulation passes `delay_fix = 0`, so the correction is never applied to the
simulated coherence. -/
def frameGamma (cfg : TrackConfig) (inp : FrameInput) : List ℂ :=
  cal_coherence inp.bad_delay 0 cfg.wavelengths cfg.bandpass cfg.true_params
    inp.shot inp.readN

/-- Updated running-average envelope of one frame
(group_delay_sim_loop.py lines 108–111):
`a * delay_envelope + (1 - a) * ave_delay_envelope`, elementwise. -/
def aveUpdate (cfg : TrackConfig) (s : TrackState) (inp : FrameInput) :
    List ℝ :=
  let delay_envelope := group_delay_envelope (frameGamma cfg inp)
      cfg.trial_delays cfg.wavelengths false
  (delay_envelope.zip s.ave_delay_envelope).map fun p =>
    cfg.a * p.1 + (1 - cfg.a) * p.2

/-- One frame of the tracking loop (group_delay_sim_loop.py lines 96–123):
update the running average; while `frame_num < num_group_delay_frames`
re-estimate `fix_delay` from the running-average envelope, correct the
coherence and record a bias-subtracted squared visibility; always increment
the frame counter.  `none` models a Python exception inside `find_delay`. -/
def trackStep (cfg : TrackConfig) (s : TrackState) (inp : FrameInput) :
    Option TrackState :=
  let gamma := frameGamma cfg inp
  let ave := aveUpdate cfg s inp
  if s.frame_num < cfg.num_group_delay_frames then
    match find_delay ave cfg.trial_delays with
    | none => none
    | some fd =>
      let new_gamma := (gamma.zip cfg.wavelengths).map fun p =>
        p.1 / ((npSinc (fd * cfg.bandpass / p.2 ^ 2) : ℝ) : ℂ) *
          Complex.exp (-Complex.I * ((2 * π * fd / p.2 : ℝ) : ℂ))
      let v := (new_gamma.map fun z => Complex.abs z ^ 2).sum /
          (new_gamma.length : ℝ) - cfg.bias_vis
      some ⟨ave, fd, s.frame_num + 1, s.vis_array ++ [v]⟩
  else
    some ⟨ave, s.fix_delay, s.frame_num + 1, s.vis_array⟩

/-- Iterated tracking loop over a list of frame inputs. -/
def trackRun (cfg : TrackConfig) (s : TrackState) :
    List FrameInput → Option TrackState
  | [] => some s
  | inp :: rest =>
    match trackStep cfg s inp with
    | none => none
    | some s2 => trackRun cfg s2 rest

/-! ## Helper lemmas -/

theorem npSinc_zero : npSinc 0 = 1 := by
  simp [npSinc]

theorem npSinc_of_ne {x : ℝ} (hx : x ≠ 0) :
    npSinc x = Real.sin (π * x) / (π * x) := by
  simp [npSinc, hx]

theorem phaseshift_glass_zero_length (lam lam_0 : ℝ) :
    phaseshift_glass lam 0 lam_0 = 0 := by
  simp [phaseshift_glass]

theorem sellmeier_ref_pos : 0 < sellmeier_equation 675e-9 := by
  rw [sellmeier_equation]
  apply Real.sqrt_pos.mpr
  rw [B1, B2, B3, C1, C2, C3]
  norm_num

theorem sellmeier_sub_group_ref_pos :
    0 < sellmeier_equation 675e-9 - calc_group_index 675e-9 := by
  have hn := sellmeier_ref_pos
  simp only [calc_group_index, sub_sub_cancel]
  apply div_pos _ hn
  apply mul_pos (by norm_num)
  rw [B1, B2, B3, C1, C2, C3]
  norm_num

theorem calc_chi_2_AC_model_zero (ws : List ℝ) (d length lam_0 : ℝ) :
    calc_chi_2_AC
      (ws.map fun lam => Real.cos (2 * π * d / lam - phaseshift_glass lam length lam_0))
      d ws length lam_0 = 0 := by
  induction ws with
  | nil => rfl
  | cons w t ih =>
    simp only [calc_chi_2_AC, List.map_cons, List.zip_cons_cons,
      List.sum_cons] at ih ⊢
    rw [sub_self]
    simpa using ih

theorem calc_chi_2_AC_nonneg (gamma_r : List ℝ) (delay : ℝ)
    (wavelengths : List ℝ) (length lam_0 : ℝ) :
    0 ≤ calc_chi_2_AC gamma_r delay wavelengths length lam_0 := by
  unfold calc_chi_2_AC
  apply List.sum_nonneg
  intro x hx
  obtain ⟨p, _, rfl⟩ := List.mem_map.mp hx
  exact sq_nonneg _

theorem argmaxAux_fst_lt (x : ℝ) (xs : List ℝ) :
    (argmaxAux x xs).1 < xs.length + 1 := by
  induction xs generalizing x with
  | nil => simp [argmaxAux]
  | cons y ys ih =>
    rw [argmaxAux]
    by_cases h : x < (argmaxAux y ys).2
    · simpa [h] using Nat.succ_lt_succ (ih y)
    · simp [h]

theorem argmaxAux_spec (x : ℝ) (xs : List ℝ) :
    (x :: xs).getD (argmaxAux x xs).1 0 = (argmaxAux x xs).2 ∧
    (∀ j, j < (x :: xs).length →
      (x :: xs).getD j 0 ≤ (argmaxAux x xs).2) ∧
    ∀ j, j < (argmaxAux x xs).1 →
      (x :: xs).getD j 0 < (argmaxAux x xs).2 := by
  induction xs generalizing x with
  | nil =>
    refine ⟨rfl, fun j hj => ?_, fun j hj => by simp [argmaxAux] at hj⟩
    simp only [List.length_singleton, Nat.lt_one_iff] at hj
    subst hj
    simp [argmaxAux]
  | cons y ys ih =>
    obtain ⟨ihv, ihmax, ihfirst⟩ := ih y
    rw [argmaxAux]
    by_cases h : x < (argmaxAux y ys).2
    · simp only [if_pos h]
      refine ⟨ihv, fun j hj => ?_, fun j hj => ?_⟩
      · cases j with
        | zero => exact h.le
        | succ j =>
          exact ihmax j (by simpa [Nat.succ_lt_succ_iff] using hj)
      · cases j with
        | zero => exact h
        | succ j => exact ihfirst j (Nat.lt_of_succ_lt_succ hj)
    · simp only [if_neg h]
      refine ⟨rfl, fun j hj => ?_, fun j hj => by omega⟩
      cases j with
      | zero => exact le_rfl
      | succ j =>
        exact le_trans
          (ihmax j (by simpa [Nat.succ_lt_succ_iff] using hj))
          (not_lt.mp h)

theorem acScan_of_forall_not (chi : ℝ → ℝ) {ds : List ℝ} {m : ℝ}
    (best : Option ℝ) (h : ∀ d ∈ ds, ¬ chi d < m) :
    acScan chi ds m best = best := by
  induction ds with
  | nil => rfl
  | cons d t ih =>
    rw [acScan, if_neg (h d (List.mem_cons_self d t))]
    exact ih fun e he => h e (List.mem_cons_of_mem _ he)

theorem acScan_isSome_of_isSome (chi : ℝ → ℝ) (ds : List ℝ) :
    ∀ (m b : ℝ), (acScan chi ds m (some b)).isSome := by
  induction ds with
  | nil => intro m b; rfl
  | cons d t ih =>
    intro m b
    rw [acScan]
    split
    · exact ih _ _
    · exact ih _ _

theorem acScan_isSome (chi : ℝ → ℝ) (ds : List ℝ) :
    ∀ (m : ℝ) (best : Option ℝ), (∃ d ∈ ds, chi d < m) →
      (acScan chi ds m best).isSome := by
  induction ds with
  | nil =>
    intro m best h
    obtain ⟨d, hd, _⟩ := h
    simp at hd
  | cons e t ih =>
    intro m best h
    rw [acScan]
    by_cases he : chi e < m
    · rw [if_pos he]
      exact acScan_isSome_of_isSome chi t _ _
    · rw [if_neg he]
      obtain ⟨d, hd, hlt⟩ := h
      rcases List.mem_cons.mp hd with rfl | hmem
      · exact absurd hlt he
      · exact ih _ _ ⟨d, hmem, hlt⟩

theorem acScan_first_argmin (chi : ℝ → ℝ) (ds : List ℝ) :
    ∀ (i : ℕ) (m : ℝ) (best : Option ℝ), i < ds.length →
      chi (ds.getD i 0) < m →
      (∀ j, j < ds.length → chi (ds.getD i 0) ≤ chi (ds.getD j 0)) →
      (∀ j, j < i → chi (ds.getD i 0) < chi (ds.getD j 0)) →
      acScan chi ds m best = some (ds.getD i 0) := by
  induction ds with
  | nil => intro i m best hi; simp at hi
  | cons e t ih =>
    intro i m best hi hlt hmin hfirst
    cases i with
    | zero =>
      simp only [List.getD_cons_zero] at hlt hmin ⊢
      rw [acScan, if_pos hlt]
      apply acScan_of_forall_not
      intro d hd
      obtain ⟨⟨j, hj⟩, rfl⟩ := List.mem_iff_get.mp hd
      have := hmin (j + 1) (Nat.succ_lt_succ hj)
      rw [List.getD_cons_succ, List.getD_eq_getElem _ _ hj] at this
      simpa [List.get_eq_getElem] using not_lt.mpr this
    | succ i =>
      simp only [List.getD_cons_succ] at hlt hmin hfirst ⊢
      by_cases he : chi e < m
      · rw [acScan, if_pos he]
        refine ih i (chi e) (some e) (Nat.lt_of_succ_lt_succ hi) ?_ ?_ ?_
        · have := hfirst 0 (Nat.succ_pos i)
          rwa [List.getD_cons_zero] at this
        · intro j hj
          have := hmin (j + 1) (Nat.succ_lt_succ hj)
          rwa [List.getD_cons_succ] at this
        · intro j hj
          have := hfirst (j + 1) (Nat.succ_lt_succ hj)
          rwa [List.getD_cons_succ] at this
      · rw [acScan, if_neg he]
        refine ih i m best (Nat.lt_of_succ_lt_succ hi) hlt ?_ ?_
        · intro j hj
          have := hmin (j + 1) (Nat.succ_lt_succ hj)
          rwa [List.getD_cons_succ] at this
        · intro j hj
          have := hfirst (j + 1) (Nat.succ_lt_succ hj)
          rwa [List.getD_cons_succ] at this

theorem acScanPlot_snd (chi : ℝ → ℝ) (ds : List ℝ) :
    ∀ (arr : List ℝ) (m : ℝ) (best : Option ℝ),
      (acScanPlot chi ds arr m best).2 = acScan chi ds m best := by
  induction ds with
  | nil => intro arr m best; rfl
  | cons d t ih =>
    intro arr m best
    rw [acScanPlot, acScan]
    split
    · exact ih _ _ _
    · exact ih _ _ _

theorem trackStep_of_ge (cfg : TrackConfig) (t : TrackState)
    (inp : FrameInput) (h : cfg.num_group_delay_frames ≤ t.frame_num) :
    trackStep cfg t inp =
      some ⟨aveUpdate cfg t inp, t.fix_delay, t.frame_num + 1,
        t.vis_array⟩ := by
  rw [trackStep, if_neg (not_lt.mpr h)]

theorem trackRun_fix_of_ge (cfg : TrackConfig) (inputs : List FrameInput) :
    ∀ (t tf : TrackState), cfg.num_group_delay_frames ≤ t.frame_num →
      trackRun cfg t inputs = some tf → tf.fix_delay = t.fix_delay := by
  induction inputs with
  | nil =>
    intro t tf _ hrun
    rw [trackRun] at hrun
    rw [← Option.some_inj.mp hrun]
  | cons inp rest ih =>
    intro t tf h hrun
    rw [trackRun, trackStep_of_ge cfg t inp h] at hrun
    exact ih ⟨aveUpdate cfg t inp, t.fix_delay, t.frame_num + 1,
      t.vis_array⟩ tf (le_trans h (Nat.le_succ _)) hrun

/-! ## Claim theorems -/

/-- Claim C3: `fringe_flux` returns
`F × (1 + sinc(x·Δλ/λ²) × V × cos(2π·x/λ − φ − φ_d − φ_o))` with the
normalized sinc convention `sin (π u) / (π u)`, and in particular at `x = 0`
it equals `F × (1 + V·cos(−φ − φ_d − φ_o))`. -/
theorem claim_C3 (x lam bandpass F_0 vis coh_phase disp_phase offset : ℝ)
    (hx : x * bandpass / lam ^ 2 ≠ 0) :
    fringe_flux x lam bandpass F_0 vis coh_phase disp_phase offset =
      F_0 * (1 + Real.sin (π * (x * bandpass / lam ^ 2)) /
          (π * (x * bandpass / lam ^ 2)) * vis *
        Real.cos (2 * π * x / lam - coh_phase - disp_phase - offset)) ∧
    fringe_flux 0 lam bandpass F_0 vis coh_phase disp_phase offset =
      F_0 * (1 + vis * Real.cos (-coh_phase - disp_phase - offset)) := by
  constructor
  · rw [fringe_flux, npSinc_of_ne hx]
  · rw [fringe_flux]
    rw [show (0 : ℝ) * bandpass / lam ^ 2 = 0 by ring, npSinc_zero,
      show 2 * π * 0 / lam = 0 by ring]
    ring_nf

/-- Claim C4: if `gamma_r` is generated noiselessly from the exact model at
a known delay `d` in the trial-delay sequence, `calc_chi_2_AC` at `d` equals
`0` and is the global minimum over the trial-delay sequence: every trial
delay `delta` gives a value `≥ 0`. -/
theorem claim_C4 (wavelengths gamma_r trial_delays : List ℝ)
    (d delta length lam_0 : ℝ)
    (hgamma : gamma_r = wavelengths.map fun lam =>
      Real.cos (2 * π * d / lam - phaseshift_glass lam length lam_0))
    (hd : d ∈ trial_delays) (hdelta : delta ∈ trial_delays) :
    calc_chi_2_AC gamma_r d wavelengths length lam_0 = 0 ∧
    0 ≤ calc_chi_2_AC gamma_r delta wavelengths length lam_0 := by
  subst hgamma
  exact ⟨calc_chi_2_AC_model_zero wavelengths d length lam_0,
    calc_chi_2_AC_nonneg _ _ _ _ _⟩

/-- Witness for claim C4 at the concrete input: one channel `λ = 1`, glass
length `0`, reference wavelength `1`, known delay `0` in the trial sequence
`[0]`, `gamma_r` the noiseless model. -/
theorem claim_C4_witness :
    calc_chi_2_AC [Real.cos (2 * π * 0 / 1 - phaseshift_glass 1 0 1)] 0 [1]
        0 1 = 0 ∧
    0 ≤ calc_chi_2_AC [Real.cos (2 * π * 0 / 1 - phaseshift_glass 1 0 1)] 0
        [1] 0 1 :=
  claim_C4 [1] [Real.cos (2 * π * 0 / 1 - phaseshift_glass 1 0 1)] [0] 0 0 0
    1 rfl (by simp) (by simp)

/-- Claim C6: for every non-empty delay envelope and index-aligned
trial-delay sequence of the same length, `find_delay` returns the trial
delay at the index of the maximum envelope value, with ties broken by first
occurrence (the first index attaining the maximum). -/
theorem claim_C6 (delay_envelope trial_delays : List ℝ) (i : ℕ)
    (hlen : delay_envelope.length = trial_delays.length)
    (hi : i < delay_envelope.length)
    (hmax : ∀ j, j < delay_envelope.length →
      delay_envelope.getD j 0 ≤ delay_envelope.getD i 0)
    (hfirst : ∀ j, j < i →
      delay_envelope.getD j 0 < delay_envelope.getD i 0) :
    find_delay delay_envelope trial_delays =
      some (trial_delays.getD i 0) := by
  cases delay_envelope with
  | nil => simp at hi
  | cons x xs =>
    obtain ⟨hv, hm, hf⟩ := argmaxAux_spec x xs
    have ha : (argmaxAux x xs).1 < (x :: xs).length := by
      simpa using argmaxAux_fst_lt x xs
    have hai : (argmaxAux x xs).1 = i := by
      rcases lt_trichotomy (argmaxAux x xs).1 i with h | h | h
      · exact absurd (lt_of_lt_of_le (hfirst _ h) (hv ▸ hm i hi))
          (lt_irrefl _)
      · exact h
      · exact absurd (lt_of_lt_of_le (hf i h) (hv ▸ hmax _ ha))
          (lt_irrefl _)
    have hi2 : i < trial_delays.length := hlen ▸ hi
    rw [find_delay, listArgmax, Option.some_bind, hai,
      List.getElem?_eq_getElem hi2, List.getD_eq_getElem _ _ hi2]

/-- Witness for claim C6 at the concrete input: envelope `[1, 2, 2]` with
first maximum at index `1`, trial delays `[10, 20, 30]`. -/
theorem claim_C6_witness :
    find_delay [1, 2, 2] [10, 20, 30] =
      some (List.getD [(10 : ℝ), 20, 30] 1 0) := by
  refine claim_C6 [1, 2, 2] [10, 20, 30] 1 rfl (by norm_num)
    (fun j hj => ?_) (fun j hj => ?_)
  · simp only [List.length_cons, List.length_nil] at hj
    interval_cases j <;> norm_num
  · interval_cases j
    norm_num

/-- Claim C5: whenever `find_delay_AC` returns a value, it is the trial
delay at the first index `i` attaining the minimum chi-squared over the
scan: a later trial delay with chi-squared equal to the current minimum is
never adopted. -/
theorem claim_C5 (gamma_r trial_delays wavelengths : List ℝ)
    (length lam_0 d : ℝ) (i : ℕ)
    (hret : find_delay_AC gamma_r trial_delays wavelengths length lam_0
      false = some d)
    (hi : i < trial_delays.length)
    (hmin : ∀ j, j < trial_delays.length →
      calc_chi_2_AC gamma_r (trial_delays.getD i 0) wavelengths length
          lam_0 ≤
        calc_chi_2_AC gamma_r (trial_delays.getD j 0) wavelengths length
          lam_0)
    (hfirst : ∀ j, j < i →
      calc_chi_2_AC gamma_r (trial_delays.getD i 0) wavelengths length
          lam_0 <
        calc_chi_2_AC gamma_r (trial_delays.getD j 0) wavelengths length
          lam_0) :
    d = trial_delays.getD i 0 := by
  rw [find_delay_AC, if_neg Bool.false_ne_true] at hret
  have hlt : calc_chi_2_AC gamma_r (trial_delays.getD i 0) wavelengths
      length lam_0 < 1e10 := by
    by_contra hge
    rw [acScan_of_forall_not _ none ?hall] at hret
    · exact Option.noConfusion hret
    case hall =>
      intro e he
      obtain ⟨⟨j, hj⟩, rfl⟩ := List.mem_iff_get.mp he
      have h1 := hmin j hj
      rw [List.getD_eq_getElem _ _ hj] at h1
      simp only [List.get_eq_getElem]
      exact not_lt.mpr (le_trans (not_lt.mp hge) h1)
  rw [acScan_first_argmin _ trial_delays i 1e10 none hi hlt hmin hfirst]
    at hret
  exact (Option.some_inj.mp hret).symm

/-- Witness for claim C5 at the concrete input: `gamma_r = [0]`, one channel
`λ = 1`, glass length `0`, reference wavelength `1`, trial delays
`[1/2, 0]`.  Both trial delays have chi-squared `1` (a tie); the scan keeps
the first, `1/2`. -/
theorem claim_C5_witness :
    (1 / 2 : ℝ) = List.getD [(1 / 2 : ℝ), 0] 0 0 := by
  have h0 : phaseshift_glass 1 0 1 = 0 := phaseshift_glass_zero_length 1 1
  have hchi : ∀ x : ℝ, calc_chi_2_AC [0] x [1] 0 1 =
      Real.cos (2 * π * x) ^ 2 := by
    intro x
    simp [calc_chi_2_AC, h0]
  have hhalf : calc_chi_2_AC [0] (1 / 2) [1] 0 1 = 1 := by
    rw [hchi, show 2 * π * (1 / 2) = π by ring, Real.cos_pi]
    norm_num
  have hzero : calc_chi_2_AC [0] 0 [1] 0 1 = 1 := by
    rw [hchi]
    norm_num
  refine claim_C5 [0] [1 / 2, 0] [1] 0 1 (1 / 2) 0 ?_ (by norm_num)
    (fun j hj => ?_) (fun j hj => by omega)
  · rw [find_delay_AC, if_neg Bool.false_ne_true, acScan,
      if_pos (by rw [hhalf]; norm_num), acScan,
      if_neg (by rw [hhalf, hzero]; norm_num), acScan]
  · simp only [List.length_cons, List.length_nil] at hj
    interval_cases j
    · exact le_rfl
    · simp only [List.getD_cons_zero, List.getD_cons_succ]
      rw [hhalf, hzero]

/-- Claim C9: `find_delay_AC` with `plot=True` and with `plot=False` return
the same delay estimate; the two branches perform the identical scan and
differ only in accumulating the chi-squared sequence for plotting. -/
theorem claim_C9 (gamma_r trial_delays wavelengths : List ℝ)
    (length lam_0 : ℝ) :
    find_delay_AC gamma_r trial_delays wavelengths length lam_0 true =
      find_delay_AC gamma_r trial_delays wavelengths length lam_0 false := by
  rw [find_delay_AC, find_delay_AC, if_pos rfl,
    if_neg Bool.false_ne_true, acScanPlot_snd]

/-- Counterexample to claim C1 as stated: with coherence input
`gamma_r = [1000000]`, one wavelength channel `[1]`, glass length `0`,
reference wavelength `1` and the non-empty trial-delay sequence `[0]`,
every trial delay has chi-squared `(cos 0 − 1000000)² ≥ 1e10`, so
`delay_min` is never assigned and `find_delay_AC` fails (returns `none`,
the Python `UnboundLocalError`) instead of returning a value. -/
theorem claim_C1_cex :
    find_delay_AC [1000000] [0] [1] 0 1 false = none := by
  rw [find_delay_AC, if_neg Bool.false_ne_true, acScan, if_neg ?h, acScan]
  case h =>
    have h0 : (2 * π * 0 / 1 - phaseshift_glass 1 0 1) = 0 := by
      rw [phaseshift_glass_zero_length]
      ring
    show ¬ calc_chi_2_AC [1000000] 0 [1] 0 1 < 1e10
    rw [calc_chi_2_AC]
    simp only [List.zip_cons_cons, List.zip_nil_right, List.map_cons,
      List.map_nil, List.sum_cons, List.sum_nil, h0, Real.cos_zero]
    norm_num

/-- Claim C1 (amended): for every non-empty trial-delay sequence,
`find_delay` on the group-delay envelope of that sequence returns a value;
`find_delay_AC` returns a value provided some trial delay has chi-squared
below the initial minimum `1e10` (when every trial delay has chi-squared
`≥ 1e10`, as in the counterexample, it fails with an unbound
`delay_min`). -/
theorem claim_C1_amended (gamma : List ℂ)
    (gamma_r trial_delays wavelengths : List ℝ) (length lam_0 : ℝ)
    (plot : Bool) (hne : trial_delays ≠ [])
    (hchi : ∃ δ ∈ trial_delays,
      calc_chi_2_AC gamma_r δ wavelengths length lam_0 < 1e10) :
    (find_delay (group_delay_envelope gamma trial_delays wavelengths plot)
      trial_delays).isSome ∧
    (find_delay_AC gamma_r trial_delays wavelengths length lam_0
      plot).isSome := by
  constructor
  · cases trial_delays with
    | nil => exact absurd rfl hne
    | cons t ts =>
      rw [group_delay_envelope, List.map_cons, find_delay, listArgmax,
        Option.some_bind]
      have h2 : (argmaxAux (find_white_fringe gamma t wavelengths)
          (ts.map fun delay => find_white_fringe gamma delay
            wavelengths)).1 < (t :: ts).length := by
        simpa using argmaxAux_fst_lt (find_white_fringe gamma t wavelengths)
          (ts.map fun delay => find_white_fringe gamma delay wavelengths)
      rw [List.getElem?_eq_getElem h2]
      rfl
  · rw [find_delay_AC]
    cases plot with
    | true =>
      rw [if_pos rfl, acScanPlot_snd]
      exact acScan_isSome _ _ _ _ hchi
    | false =>
      rw [if_neg Bool.false_ne_true]
      exact acScan_isSome _ _ _ _ hchi

/-- Witness for claim C1 (amended) at the concrete input: empty coherence,
trial delays `[0]`, `gamma_r = [0]`, one channel `λ = 1`, glass length `0`,
reference wavelength `1`, no plotting; the trial delay `0` has chi-squared
`1 < 1e10`. -/
theorem claim_C1_witness :
    (find_delay (group_delay_envelope [] [0] [1] false) [0]).isSome ∧
    (find_delay_AC [0] [0] [1] 0 1 false).isSome := by
  refine claim_C1_amended [] [0] [0] [1] 0 1 false (by simp) ⟨0, by simp, ?_⟩
  have h0 : (2 * π * 0 / 1 - phaseshift_glass 1 0 1) = 0 := by
    rw [phaseshift_glass_zero_length]
    ring
  rw [calc_chi_2_AC]
  simp only [List.zip_cons_cons, List.zip_nil_right, List.map_cons,
    List.map_nil, List.sum_cons, List.sum_nil, h0, Real.cos_zero]
  norm_num

/-- Claim C2: for every wavelength channel `k`, the tricoupler coherence
estimator returns
`γ = (3·F_A + i√3·(F_C − F_B)) / (F_A + F_B + F_C) − 1`, where
`F_A`, `F_B`, `F_C` are the noisy rounded output fluxes produced with output
phase offsets `0`, `2π/3`, `4π/3` and effective delay
`atmospheric_delay − correction_delay`. -/
theorem claim_C2 (delay_bad delay_fix : ℝ) (wavelengths : List ℝ)
    (bandpass F_0 vis coh_phase : ℝ) (shot : ℕ → ℕ → ℝ → ℝ) (readN : ℕ → ℝ)
    (k : ℕ) (hk : k < wavelengths.length) :
    (cal_coherence delay_bad delay_fix wavelengths bandpass
        (F_0, vis, coh_phase) shot readN)[k]? =
      some (
        let F_A : ℝ := (npRound (shot 0 k (fringe_flux
            (delay_bad - delay_fix) (wavelengths.getD k 0) bandpass F_0 vis
            coh_phase 0 0) + readN 0) : ℝ)
        let F_B : ℝ := (npRound (shot 1 k (fringe_flux
            (delay_bad - delay_fix) (wavelengths.getD k 0) bandpass F_0 vis
            coh_phase 0 (2 * π / 3)) + readN 1) : ℝ)
        let F_C : ℝ := (npRound (shot 2 k (fringe_flux
            (delay_bad - delay_fix) (wavelengths.getD k 0) bandpass F_0 vis
            coh_phase 0 (4 * π / 3)) + readN 2) : ℝ)
        (3 * (F_A : ℂ) + Real.sqrt 3 * Complex.I * ((F_C : ℂ) - (F_B : ℂ))) /
          ((F_A : ℂ) + (F_B : ℂ) + (F_C : ℂ)) - 1) := by
  have o0 : 2 * π / 3 * ((0 : ℕ) : ℝ) = 0 := by
    push_cast
    ring
  have o1 : 2 * π / 3 * ((1 : ℕ) : ℝ) = 2 * π / 3 := by
    push_cast
    ring
  have o2 : 2 * π / 3 * ((2 : ℕ) : ℝ) = 4 * π / 3 := by
    push_cast
    ring
  simp only [cal_coherence, tricouplerFlux, tricouplerPreRound,
    List.getElem?_map, List.getElem?_range hk, Option.map_some', o0, o1,
    o2]

/-- Witness for claim C2 at channel `k = 0` of the concrete input: one
channel `λ = 1`, `delay_bad = delay_fix = 0`, `Δλ = 1`,
`(F, V, φ) = (1, 1, 0)`, identity shot draw and zero read noise. -/
theorem claim_C2_witness :
    (cal_coherence 0 0 [1] 1 (1, 1, 0) (fun _ _ m => m) (fun _ => 0))[0]? =
      some (
        let F_A : ℝ := (npRound ((fun (_ _ : ℕ) (m : ℝ) => m) 0 0
            (fringe_flux (0 - 0) (List.getD [(1 : ℝ)] 0 0) 1 1 1 0 0 0) +
            (fun _ : ℕ => (0 : ℝ)) 0) : ℝ)
        let F_B : ℝ := (npRound ((fun (_ _ : ℕ) (m : ℝ) => m) 1 0
            (fringe_flux (0 - 0) (List.getD [(1 : ℝ)] 0 0) 1 1 1 0 0
            (2 * π / 3)) + (fun _ : ℕ => (0 : ℝ)) 1) : ℝ)
        let F_C : ℝ := (npRound ((fun (_ _ : ℕ) (m : ℝ) => m) 2 0
            (fringe_flux (0 - 0) (List.getD [(1 : ℝ)] 0 0) 1 1 1 0 0
            (4 * π / 3)) + (fun _ : ℕ => (0 : ℝ)) 2) : ℝ)
        (3 * (F_A : ℂ) + Real.sqrt 3 * Complex.I * ((F_C : ℂ) - (F_B : ℂ))) /
          ((F_A : ℂ) + (F_B : ℂ) + (F_C : ℂ)) - 1) :=
  claim_C2 0 0 [1] 1 1 1 0 (fun _ _ m => m) (fun _ => 0) 0 (by simp)

/-- Claim C10: in both combiner simulators the additive Gaussian read-noise
term is a single scalar per output fiber added identically to every
wavelength channel before rounding: for fixed noise draws, the pre-rounding
fluxes of any two channels `k`, `k2` of the same output `i` differ only by
their shot-noise-on-model terms (the read-noise contribution cancels). -/
theorem claim_C10 (delay_bad delay_fix : ℝ) (wavelengths : List ℝ)
    (bandpass length lam_0 F_0 vis coh_phase : ℝ) (shot : ℕ → ℕ → ℝ → ℝ)
    (readN : ℕ → ℝ) (i k k2 : ℕ) :
    tricouplerPreRound delay_bad delay_fix wavelengths bandpass F_0 vis
        coh_phase shot readN i k -
      tricouplerPreRound delay_bad delay_fix wavelengths bandpass F_0 vis
        coh_phase shot readN i k2 =
      shot i k (fringe_flux (delay_bad - delay_fix) (wavelengths.getD k 0)
          bandpass F_0 vis coh_phase 0 (2 * π / 3 * i)) -
        shot i k2 (fringe_flux (delay_bad - delay_fix)
          (wavelengths.getD k2 0) bandpass F_0 vis coh_phase 0
          (2 * π / 3 * i)) ∧
    acPreRound delay_bad delay_fix wavelengths bandpass length lam_0 F_0 vis
        coh_phase shot readN i k -
      acPreRound delay_bad delay_fix wavelengths bandpass length lam_0 F_0
        vis coh_phase shot readN i k2 =
      shot i k (fringe_flux (delay_bad - delay_fix) (wavelengths.getD k 0)
          bandpass F_0 vis coh_phase
          (phaseshift_glass (wavelengths.getD k 0) length lam_0) (π * i)) -
        shot i k2 (fringe_flux (delay_bad - delay_fix)
          (wavelengths.getD k2 0) bandpass F_0 vis coh_phase
          (phaseshift_glass (wavelengths.getD k2 0) length lam_0)
          (π * i)) := by
  constructor
  · simp only [tricouplerPreRound]
    ring
  · simp only [acPreRound]
    ring

/-- Counterexample to claim C7 as stated: at extra glass length `L = 0`
(with wavelength and reference wavelength both the repository's `675e-9`),
`phaseshift_glass` equals the claimed formula
`(n_phase(λ₀) − n_group(λ₀)) × L × 2π / λ₀` but that value is zero, refuting
the claim's "which is not zero" at this input. -/
theorem claim_C7_cex :
    phaseshift_glass 675e-9 0 675e-9 =
      (sellmeier_equation 675e-9 - calc_group_index 675e-9) * 0 * (2 * π) /
        675e-9 ∧
    phaseshift_glass 675e-9 0 675e-9 = 0 := by
  refine ⟨?_, phaseshift_glass_zero_length _ _⟩
  simp only [phaseshift_glass]
  ring

/-- Claim C7 (amended): for every wavelength `λ`, extra glass length `L` and
reference wavelength `λ₀`, `phaseshift_glass λ L λ₀` equals
`(n_phase(λ) − n_group(λ₀)) × L × 2π / λ`; at `λ = λ₀` equal to the
repository's reference wavelength `675e-9` this baseline value
`(n_phase(λ₀) − n_group(λ₀)) × L × 2π / λ₀` is not zero provided `L ≠ 0`
(at `L = 0` it vanishes). -/
theorem claim_C7_amended (lam length lam_0 : ℝ) (hL : length ≠ 0) :
    phaseshift_glass lam length lam_0 =
      (sellmeier_equation lam - calc_group_index lam_0) * length * (2 * π) /
        lam ∧
    phaseshift_glass 675e-9 length 675e-9 ≠ 0 := by
  constructor
  · simp only [phaseshift_glass]
    ring
  · simp only [phaseshift_glass]
    exact div_ne_zero
      (mul_ne_zero
        (mul_ne_zero (mul_ne_zero (ne_of_gt sellmeier_sub_group_ref_pos) hL)
          two_ne_zero)
        Real.pi_ne_zero)
      (by norm_num)

/-- Witness for claim C7 (amended) at the concrete input
`λ = 1, L = 1, λ₀ = 1`. -/
theorem claim_C7_witness :
    phaseshift_glass 1 1 1 =
      (sellmeier_equation 1 - calc_group_index 1) * 1 * (2 * π) / 1 ∧
    phaseshift_glass 675e-9 1 675e-9 ≠ 0 :=
  claim_C7_amended 1 1 1 (by norm_num)

/-- Witness for claim C3 at the concrete input
`x = 1, λ = 1, Δλ = 1, F = 2, V = 3, φ = 5, φ_d = 7, φ_o = 11`. -/
theorem claim_C3_witness :
    fringe_flux 1 1 1 2 3 5 7 11 =
      2 * (1 + Real.sin (π * (1 * 1 / 1 ^ 2)) / (π * (1 * 1 / 1 ^ 2)) * 3 *
        Real.cos (2 * π * 1 / 1 - 5 - 7 - 11)) ∧
    fringe_flux 0 1 1 2 3 5 7 11 = 2 * (1 + 3 * Real.cos (-5 - 7 - 11)) :=
  claim_C3 1 1 1 2 3 5 7 11 (by norm_num)

/-- Claim C8: in the tracking loop the frame counter increments every frame
and is never reset; `fix_delay` is re-estimated from the running-average
envelope exactly on frames whose counter is below
`num_group_delay_frames` (state `s` below, where the new `fix_delay` is
`find_delay` of the updated average), and from any state `t` whose counter
has reached that bound `fix_delay` stays unchanged for the rest of the
run. -/
theorem claim_C8 (cfg : TrackConfig) (s t s2 t2 tf : TrackState)
    (inp : FrameInput) (inputs : List FrameInput)
    (hs : trackStep cfg s inp = some s2)
    (hsN : s.frame_num < cfg.num_group_delay_frames)
    (ht : trackStep cfg t inp = some t2)
    (htN : cfg.num_group_delay_frames ≤ t.frame_num)
    (hrun : trackRun cfg t inputs = some tf) :
    s2.frame_num = s.frame_num + 1 ∧ t2.frame_num = t.frame_num + 1 ∧
    some s2.fix_delay = find_delay (aveUpdate cfg s inp) cfg.trial_delays ∧
    t2.fix_delay = t.fix_delay ∧ tf.fix_delay = t.fix_delay := by
  rw [trackStep_of_ge cfg t inp htN] at ht
  obtain rfl := Option.some_inj.mp ht
  rw [trackStep, if_pos hsN] at hs
  cases hfd : find_delay (aveUpdate cfg s inp) cfg.trial_delays with
  | none =>
    rw [hfd] at hs
    exact Option.noConfusion hs
  | some fd =>
    rw [hfd] at hs
    obtain rfl := Option.some_inj.mp hs
    exact ⟨rfl, rfl, rfl, rfl, trackRun_fix_of_ge cfg inputs t tf htN hrun⟩

/-- Witness for claim C8 at the concrete input: configuration with no
wavelength channels, one trial delay `0`, smoothing coefficient `1`,
`num_group_delay_frames = 1`; state `s` at frame `0` (below the bound),
state `t` at frame `1` (at the bound) with `fix_delay = 5`, an empty rest of
run. -/
theorem claim_C8_witness :
    (⟨[0], 0, 1, [0]⟩ : TrackState).frame_num =
        (⟨[0], 0, 0, []⟩ : TrackState).frame_num + 1 ∧
    (⟨[0], 5, 2, []⟩ : TrackState).frame_num =
        (⟨[0], 5, 1, []⟩ : TrackState).frame_num + 1 ∧
    some (⟨[0], 0, 1, [0]⟩ : TrackState).fix_delay =
      find_delay
        (aveUpdate ⟨[], 1, [0], 1, 1, 0, (0, 0, 0)⟩ ⟨[0], 0, 0, []⟩
          ⟨0, fun _ _ _ => 0, fun _ => 0⟩)
        (⟨[], 1, [0], 1, 1, 0, (0, 0, 0)⟩ : TrackConfig).trial_delays ∧
    (⟨[0], 5, 2, []⟩ : TrackState).fix_delay =
        (⟨[0], 5, 1, []⟩ : TrackState).fix_delay ∧
    (⟨[0], 5, 1, []⟩ : TrackState).fix_delay =
        (⟨[0], 5, 1, []⟩ : TrackState).fix_delay := by
  have hfw : ∀ (g : List ℂ) (d : ℝ), find_white_fringe g d [] = 0 := by
    intro g d
    simp [find_white_fringe]
  have have1 : ∀ st : TrackState, st.ave_delay_envelope = [0] →
      aveUpdate ⟨[], 1, [0], 1, 1, 0, (0, 0, 0)⟩ st
        ⟨0, fun _ _ _ => 0, fun _ => 0⟩ = [0] := by
    intro st hst
    simp [aveUpdate, group_delay_envelope, hfw, hst]
  refine claim_C8 ⟨[], 1, [0], 1, 1, 0, (0, 0, 0)⟩ ⟨[0], 0, 0, []⟩
    ⟨[0], 5, 1, []⟩ ⟨[0], 0, 1, [0]⟩ ⟨[0], 5, 2, []⟩ ⟨[0], 5, 1, []⟩
    ⟨0, fun _ _ _ => 0, fun _ => 0⟩ [] ?_ (by norm_num) ?_ (by norm_num) rfl
  · rw [trackStep, if_pos (by norm_num)]
    rw [have1 ⟨[0], 0, 0, []⟩ rfl]
    have hfd : find_delay [(0 : ℝ)] [(0 : ℝ)] = some 0 := by
      simp [find_delay, listArgmax, argmaxAux]
    rw [hfd]
    have hγ : frameGamma ⟨[], 1, [0], 1, 1, 0, (0, 0, 0)⟩
        ⟨0, fun _ _ _ => 0, fun _ => 0⟩ = [] := by
      simp [frameGamma, cal_coherence]
    simp [hγ, have1 ⟨[0], 0, 0, []⟩ rfl]
  · rw [trackStep_of_ge _ _ _ (by norm_num), have1 ⟨[0], 5, 1, []⟩ rfl]

end CouplerStuff
